import Mathlib

/-!
Shallow embedding of the one-dimensional steady-state heat-conduction
calculations of `jupyter_notebooks/.ipynb_checkpoints/HeatTransferConduction-checkpoint.ipynb`.

The notebook's numeric work is four short script cells:

  T1 = 150; T4 = 10
  k = [0.07, 0.7, 0.07]
  L = [0.03, 0.1, 0.03]
  AR = []
  for i in range(0,len(k)):
      AR.append(L[i]/k[i])
  q = float(T1 - T4)/np.sum(AR)
  T2 = -q*AR[0] + T1
  T3 = q*AR[2] + T4
  T = [T1, T2, T3, T4]
  x = [0, L[0], L[0]+L[1], L[0]+L[1]+L[2]]

Numbers are modelled as rationals (the literals are exact decimals, and all
the arithmetic involved is exact on them).  The loop is embedded together
with the runtime errors Python can raise while running it (index out of
range, division by zero).  The generalized solver of the specification
(validation errors, forward/backward interface-temperature iteration and the
n-layer position profile), which the notebook instantiates only at three
layers, is modelled from the spec where marked.
-/

namespace HeatConduction

/-- Runtime errors the Python loop can raise: `L[i]` past the end of the
list raises an index error, and `L[i]/k[i]` with `k[i] = 0` raises a
division-by-zero error. -/
inductive PyError
  | indexError
  | zeroDivisionError
  deriving DecidableEq, Repr

/-- The area-resistance loop of the notebook:
`AR = []; for i in range(0,len(k)): AR.append(L[i]/k[i])`.
It iterates over the indices of `k`; at each index it first reads `L[i]`
(index error if `L` is too short) and then divides by `k[i]` (division
error if `k[i] = 0`). -/
def ARloop : List ℚ → List ℚ → Except PyError (List ℚ)
  | [], _ => .ok []
  | _ :: _, [] => .error .indexError
  | ki :: ks, Li :: Ls =>
    if ki = 0 then .error .zeroDivisionError
    else
      match ARloop ks Ls with
      | .error e => .error e
      | .ok rest => .ok (Li / ki :: rest)

/-- The per-layer quotients `L[i]/k[i]` the loop appends, as a pure list. -/
def arOf (k L : List ℚ) : List ℚ := List.zipWith (fun ki Li => Li / ki) k L

/-- Source: `q = float(T1 - T4)/np.sum(AR)`, with `np.sum(AR)` the total
area-resistance. -/
def flux (Tfirst Tlast Rtotal : ℚ) : ℚ := (Tfirst - Tlast) / Rtotal

/-- Source: `np.sum(AR)`, the total area-resistance `R_total`. -/
def Rtotal (ar : List ℚ) : ℚ := ar.sum

/-! The concrete inputs of the worked example. -/

/-- Source: `T1 = 150`. -/
def T1 : ℚ := 150

/-- Source: `T4 = 10`. -/
def T4 : ℚ := 10

/-- Source: `k = [0.07, 0.7, 0.07]`. -/
def k : List ℚ := [7/100, 7/10, 7/100]

/-- Source: `L = [0.03, 0.1, 0.03]`. -/
def L : List ℚ := [3/100, 1/10, 3/100]

/-- The list `AR` the notebook's loop builds on the example inputs. -/
def ARvals : List ℚ :=
  match ARloop k L with
  | .ok r => r
  | .error _ => []

/-- Source: `q = float(T1 - T4)/np.sum(AR)`. -/
def q : ℚ := flux T1 T4 ARvals.sum

/-- Source: `T2 = -q*AR[0] + T1`. -/
def T2 : ℚ := -q * ARvals.getD 0 0 + T1

/-- Source: `T3 = q*AR[2] + T4`. -/
def T3 : ℚ := q * ARvals.getD 2 0 + T4

/-- Source: `T = [T1, T2, T3, T4]`. -/
def Tprofile : List ℚ := [T1, T2, T3, T4]

/-- Source: `x = [0, L[0], L[0]+L[1], L[0]+L[1]+L[2]]`. -/
def xpositions : List ℚ :=
  [0, L.getD 0 0, L.getD 0 0 + L.getD 1 0, L.getD 0 0 + L.getD 1 0 + L.getD 2 0]

/-! Generalized solver components.  The notebook only instantiates these at
the three-layer example; the n-layer versions are modelled from the spec. -/

/-- Modelled from the spec: the interface-temperature iteration of §4.2,
`T_next = T_current - q * R_layer` applied layer by layer from the first
boundary, "yielding the full ordered sequence of interface temperatures
including both boundaries".  The source contains only its first step,
`T2 = -q*AR[0] + T1`. -/
def forwardTemps (q : ℚ) : ℚ → List ℚ → List ℚ
  | Tc, [] => [Tc]
  | Tc, r :: rs => Tc :: forwardTemps q (Tc - q * r) rs

/-- Modelled from the spec: the backward iteration of §4.2, "from the last
boundary backward: `T_prev = T_next + q * R_layer`".  The source contains
only its last step, `T3 = q*AR[2] + T4`. -/
def backwardTemps (q Tlast : ℚ) : List ℚ → List ℚ
  | [] => [Tlast]
  | r :: rs => ((backwardTemps q Tlast rs).headI + q * r) :: backwardTemps q Tlast rs

/-- Modelled from the spec: the profile reporter positions of §4.3,
"position[i] = sum of thicknesses of layers before interface i".  The
source hardcodes the three-layer instance
`x = [0, L[0], L[0]+L[1], L[0]+L[1]+L[2]]`. -/
def positions : List ℚ → List ℚ
  | [] => [0]
  | l :: ls => 0 :: (positions ls).map (fun p => l + p)

/-- Modelled from the spec: the error taxonomy of §7 for a reimplementation
that accepts parametrized input (the notebook itself validates nothing). -/
inductive CalcError
  | EmptyInput
  | InvalidLayer
  | InvalidResistance
  | LengthMismatch
  deriving DecidableEq, Repr

/-- Modelled from the spec: input validation and the resistance calculator
of §4.1/§7 — `LengthMismatch` when the conductivity and thickness sequences
differ in length, `EmptyInput` when no layers are supplied, `InvalidLayer`
when some thickness or conductivity is non-positive; otherwise the ordered
per-layer area-resistances `thickness / conductivity` and their sum
`R_total`. -/
def validateLayers (ks Ls : List ℚ) : Except CalcError (List ℚ × ℚ) :=
  if ks.length ≠ Ls.length then .error .LengthMismatch
  else if ks.isEmpty then .error .EmptyInput
  else if (List.zip Ls ks).any (fun p => p.1 ≤ 0 ∨ p.2 ≤ 0) then .error .InvalidLayer
  else
    let ar := arOf ks Ls
    .ok (ar, ar.sum)

/-- Modelled from the spec: the flux and temperature solver of §4.2 —
`InvalidResistance` when `R_total ≤ 0`, otherwise the flux
`q = (T_first - T_last) / R_total` together with the ordered interface
temperatures. -/
def solveFlux (Tfirst Tlast Rtotal : ℚ) (ar : List ℚ) : Except CalcError (ℚ × List ℚ) :=
  if Rtotal ≤ 0 then .error .InvalidResistance
  else
    let qv := flux Tfirst Tlast Rtotal
    .ok (qv, forwardTemps qv Tfirst ar)

/-! Helper lemmas. -/

lemma ARloop_example : ARloop k L = .ok [3/7, 1/7, 3/7] := by
  norm_num [ARloop, k, L]

lemma ARvals_eq : ARvals = [3/7, 1/7, 3/7] := by
  unfold ARvals
  rw [ARloop_example]

lemma ARvals_sum : ARvals.sum = 1 := by
  rw [ARvals_eq]
  norm_num

lemma q_eq : q = 140 := by
  rw [q, flux, ARvals_sum, T1, T4]
  norm_num

lemma T2_eq : T2 = 90 := by
  rw [T2, q_eq, ARvals_eq, T1]
  norm_num

lemma T3_eq : T3 = 70 := by
  rw [T3, q_eq, ARvals_eq, T4]
  norm_num

lemma ARloop_take : ∀ (ks Ls : List ℚ), ARloop ks Ls = ARloop ks (Ls.take ks.length)
  | [], _ => rfl
  | _ :: _, [] => rfl
  | a :: t, b :: u => by
    simp only [ARloop, List.length_cons, List.take_succ_cons]
    rw [ARloop_take t u]

lemma ARloop_ok : ∀ (ks Ls : List ℚ), ks.length ≤ Ls.length → (∀ x ∈ ks, x ≠ 0) →
    ARloop ks Ls = .ok (arOf ks Ls)
  | [], _, _, _ => rfl
  | _ :: _, [], h, _ => by simp at h
  | a :: t, b :: u, h, hk => by
    have ha : a ≠ 0 := hk a (List.mem_cons_self a t)
    have ht : t.length ≤ u.length := by simpa using h
    simp only [ARloop, arOf, List.zipWith_cons_cons, if_neg ha]
    rw [ARloop_ok t u ht (fun x hx => hk x (List.mem_cons_of_mem a hx))]
    rfl

lemma ARloop_short : ∀ (ks Ls : List ℚ), (∀ x ∈ ks, x ≠ 0) → Ls.length < ks.length →
    ARloop ks Ls = .error .indexError
  | [], _, _, h => absurd h (by simp)
  | _ :: _, [], _, _ => rfl
  | a :: t, b :: u, hk, h => by
    have ha : a ≠ 0 := hk a (List.mem_cons_self a t)
    have hu : u.length < t.length := by simpa using h
    simp only [ARloop, if_neg ha]
    rw [ARloop_short t u (fun x hx => hk x (List.mem_cons_of_mem a hx)) hu]

lemma arOf_length (ks Ls : List ℚ) (h : ks.length ≤ Ls.length) :
    (arOf ks Ls).length = ks.length := by
  simp [arOf, Nat.min_eq_left h]

lemma arOf_getD : ∀ (ks Ls : List ℚ) (i : ℕ), i < ks.length → ks.length ≤ Ls.length →
    (arOf ks Ls).getD i 0 = Ls.getD i 0 / ks.getD i 0
  | [], _, i, h, _ => absurd h (by simp)
  | _ :: _, [], _, _, hle => by simp at hle
  | a :: t, b :: u, 0, _, _ => by simp [arOf]
  | a :: t, b :: u, i+1, h, hle => by
    simp only [arOf, List.zipWith_cons_cons, List.getD_cons_succ]
    exact arOf_getD t u i (by simpa using h) (by simpa using hle)

lemma arOf_pos : ∀ (ks Ls : List ℚ), (∀ x ∈ ks, 0 < x) → (∀ x ∈ Ls, 0 < x) →
    ∀ x ∈ arOf ks Ls, 0 < x
  | [], _, _, _ => by simp [arOf]
  | _ :: _, [], _, _ => by simp [arOf]
  | a :: t, b :: u, hk, hL => by
    intro x hx
    rcases (by simpa [arOf] using hx : x = b / a ∨ x ∈ arOf t u) with h | h
    · subst h
      exact div_pos (hL b (List.mem_cons_self b u)) (hk a (List.mem_cons_self a t))
    · exact arOf_pos t u (fun y hy => hk y (List.mem_cons_of_mem a hy))
        (fun y hy => hL y (List.mem_cons_of_mem b hy)) x h

lemma forwardTemps_getD_zero (qv Tc : ℚ) (rs : List ℚ) :
    (forwardTemps qv Tc rs).getD 0 0 = Tc := by
  cases rs <;> simp [forwardTemps]

lemma forwardTemps_length (qv : ℚ) : ∀ (Tc : ℚ) (rs : List ℚ),
    (forwardTemps qv Tc rs).length = rs.length + 1
  | _, [] => rfl
  | Tc, r :: rs => by simp [forwardTemps, forwardTemps_length qv (Tc - qv * r) rs]

lemma forwardTemps_getD_succ (qv : ℚ) : ∀ (Tc : ℚ) (rs : List ℚ) (i : ℕ), i < rs.length →
    (forwardTemps qv Tc rs).getD (i+1) 0 =
      (forwardTemps qv Tc rs).getD i 0 - qv * rs.getD i 0
  | _, [], i, h => absurd h (by simp)
  | Tc, r :: rs, 0, _ => by
    simp only [forwardTemps, List.getD_cons_succ, List.getD_cons_zero]
    rw [forwardTemps_getD_zero]
  | Tc, r :: rs, i+1, h => by
    simp only [forwardTemps, List.getD_cons_succ]
    exact forwardTemps_getD_succ qv (Tc - qv * r) rs i (by simpa using h)

lemma backwardTemps_headI (qv Tl : ℚ) : ∀ (rs : List ℚ),
    (backwardTemps qv Tl rs).headI = Tl + qv * rs.sum
  | [] => by simp [backwardTemps]
  | r :: rs => by
    simp only [backwardTemps, List.headI_cons, List.sum_cons]
    rw [backwardTemps_headI qv Tl rs]
    ring

lemma forward_eq_backward (qv Tl : ℚ) : ∀ (rs : List ℚ),
    forwardTemps qv (Tl + qv * rs.sum) rs = backwardTemps qv Tl rs
  | [] => by simp [forwardTemps, backwardTemps]
  | r :: rs => by
    have h1 : Tl + qv * (r + rs.sum) - qv * r = Tl + qv * rs.sum := by ring
    simp only [forwardTemps, backwardTemps, List.sum_cons]
    rw [h1, forward_eq_backward qv Tl rs, backwardTemps_headI]
    congr 1
    ring

lemma positions_length : ∀ (Ls : List ℚ), (positions Ls).length = Ls.length + 1
  | [] => rfl
  | l :: ls => by simp [positions, positions_length ls]

lemma positions_head? : ∀ (Ls : List ℚ), (positions Ls).head? = some 0
  | [] => rfl
  | _ :: _ => rfl

lemma positions_getD : ∀ (Ls : List ℚ) (i : ℕ), i ≤ Ls.length →
    (positions Ls).getD i 0 = (Ls.take i).sum
  | [], 0, _ => by simp [positions]
  | [], i+1, h => absurd h (by simp)
  | l :: ls, 0, _ => by simp [positions]
  | l :: ls, i+1, h => by
    have hi : i ≤ ls.length := by simpa using h
    have hlt : i < (positions ls).length := by rw [positions_length]; omega
    simp only [positions, List.getD_cons_succ]
    rw [List.getD_eq_getElem _ _ (by simpa using hlt), List.getElem_map,
      ← List.getD_eq_getElem _ (0 : ℚ) hlt, positions_getD ls i hi]
    simp

lemma positions_chain : ∀ (Ls : List ℚ), (∀ x ∈ Ls, 0 < x) →
    List.Chain' (· < ·) (positions Ls)
  | [], _ => by simp [positions]
  | l :: ls, h => by
    have hl : 0 < l := h l (List.mem_cons_self l ls)
    have ih := positions_chain ls (fun x hx => h x (List.mem_cons_of_mem l hx))
    rw [positions, List.chain'_cons']
    refine ⟨?_, ?_⟩
    · intro y hy
      rw [List.head?_map, positions_head? ls] at hy
      simp at hy
      linarith
    · rw [List.chain'_map]
      exact ih.imp fun a b hab => by linarith

lemma arOf_ne_nil : ∀ (ks Ls : List ℚ), ks ≠ [] → Ls ≠ [] → arOf ks Ls ≠ []
  | [], _, h, _ => absurd rfl h
  | _ :: _, [], _, h => absurd rfl h
  | _ :: _, _ :: _, _, _ => by simp [arOf]

lemma zip_snd_mem : ∀ (Ls ks : List ℚ), ks.length = Ls.length → ∀ x ∈ ks,
    ∃ p ∈ List.zip Ls ks, p.2 = x
  | [], [], _, x, hx => by simp at hx
  | [], _ :: _, h, _, _ => by simp at h
  | _ :: _, [], _, x, hx => by simp at hx
  | b :: u, a :: t, h, x, hx => by
    rcases List.mem_cons.1 hx with rfl | hx
    · exact ⟨(b, x), by simp, rfl⟩
    · obtain ⟨p, hp, he⟩ := zip_snd_mem u t (by simpa using h) x hx
      exact ⟨p, List.mem_cons_of_mem _ hp, he⟩

lemma forwardTemps_head? (qv Tc : ℚ) (rs : List ℚ) :
    (forwardTemps qv Tc rs).head? = some Tc := by
  cases rs <;> rfl

lemma forwardTemps_chain (qv : ℚ) (hq : 0 < qv) : ∀ (Tc : ℚ) (rs : List ℚ),
    (∀ x ∈ rs, 0 < x) → List.Chain' (· > ·) (forwardTemps qv Tc rs)
  | _, [], _ => by simp [forwardTemps]
  | Tc, r :: rs, hr => by
    have hr0 : 0 < r := hr r (List.mem_cons_self r rs)
    rw [forwardTemps, List.chain'_cons']
    refine ⟨?_, forwardTemps_chain qv hq (Tc - qv * r) rs
      (fun x hx => hr x (List.mem_cons_of_mem r hx))⟩
    intro y hy
    rw [forwardTemps_head?] at hy
    simp only [Option.mem_def, Option.some.injEq] at hy
    have := mul_pos hq hr0
    subst hy
    linarith

lemma validateLayers_ok (ks Ls : List ℚ) (hlen : ks.length = Ls.length) (hne : ks ≠ [])
    (hk : ∀ x ∈ ks, 0 < x) (hL : ∀ x ∈ Ls, 0 < x) :
    validateLayers ks Ls = .ok (arOf ks Ls, (arOf ks Ls).sum) := by
  have hany : ¬ ((List.zip Ls ks).any (fun p => p.1 ≤ 0 ∨ p.2 ≤ 0) = true) := by
    rw [List.any_eq_true]
    rintro ⟨⟨a, b⟩, hp, hdec⟩
    have hab := List.of_mem_zip hp
    simp only [decide_eq_true_eq] at hdec
    rcases hdec with h1 | h2
    · exact absurd (hL a hab.1) (by simpa using h1)
    · exact absurd (hk b hab.2) (by simpa using h2)
  simp only [validateLayers]
  rw [if_neg (not_not_intro hlen), if_neg (by simpa using hne), if_neg hany]

/-! The claims. -/

/-- Claim C1: for the worked 3-layer example with `k = [0.07, 0.7, 0.07]`,
`L = [0.03, 0.1, 0.03]`, `T1 = 150`, `T4 = 10`, the loop produces the
per-layer area-resistances `[3/7, 1/7, 3/7]` (approximately
`[0.42857, 0.14286, 0.42857]`), their sum is exactly `1`, the heat flux `q`
is exactly `140`, and the interface temperatures are `T2 = 90` and
`T3 = 70`. -/
theorem claim1_worked_example :
    ARvals = [3/7, 1/7, 3/7] ∧
    |ARvals.getD 0 0 - 42857/100000| < 1/100000 ∧
    |ARvals.getD 1 0 - 14286/100000| < 1/100000 ∧
    |ARvals.getD 2 0 - 42857/100000| < 1/100000 ∧
    ARvals.sum = 1 ∧ q = 140 ∧ T2 = 90 ∧ T3 = 70 := by
  refine ⟨ARvals_eq, ?_, ?_, ?_, ARvals_sum, q_eq, T2_eq, T3_eq⟩ <;>
    rw [ARvals_eq] <;> rw [abs_lt] <;> norm_num

/-- Claim C2: for every non-empty sequence of layers with positive
thicknesses and conductivities, the loop returns a list of per-layer
area-resistances of the same length as the input whose i-th element is
`thickness_i / conductivity_i`, and `R_total` is the sum of those
elements. -/
theorem claim2_resistance_calculator (ks Ls : List ℚ) (hne : ks ≠ [])
    (hlen : ks.length = Ls.length) (hk : ∀ x ∈ ks, 0 < x) (hL : ∀ x ∈ Ls, 0 < x) :
    ∃ ar : List ℚ, ARloop ks Ls = .ok ar ∧ ar.length = ks.length ∧
      (∀ i, i < ks.length → ar.getD i 0 = Ls.getD i 0 / ks.getD i 0) ∧
      Rtotal ar = ar.sum := by
  refine ⟨arOf ks Ls, ARloop_ok ks Ls hlen.le (fun x hx => (hk x hx).ne'), ?_, ?_, rfl⟩
  · exact arOf_length ks Ls hlen.le
  · intro i hi
    exact arOf_getD ks Ls i hi hlen.le

/-- Witness for claim C2 at the worked example's inputs. -/
theorem claim2_witness :
    ∃ ar : List ℚ, ARloop k L = .ok ar ∧ ar.length = k.length ∧
      (∀ i, i < k.length → ar.getD i 0 = L.getD i 0 / k.getD i 0) ∧
      Rtotal ar = ar.sum :=
  claim2_resistance_calculator k L (by decide) (by decide) (by norm_num [k]) (by norm_num [L])

/-- Claim C3: for all boundary temperatures and every positive total
area-resistance, the solver computes `q = (T_first - T_last) / R_total`,
and `q` is positive exactly when `T_first > T_last`. -/
theorem claim3_flux_formula (Tf Tl Rt : ℚ) (hR : 0 < Rt) :
    flux Tf Tl Rt = (Tf - Tl) / Rt ∧ (0 < flux Tf Tl Rt ↔ Tl < Tf) := by
  refine ⟨rfl, ?_⟩
  rw [flux]
  constructor
  · intro h
    have h2 := mul_pos h hR
    rw [div_mul_cancel₀ _ (ne_of_gt hR)] at h2
    linarith
  · intro h
    exact div_pos (by linarith) hR

/-- Witness for claim C3 at the worked example's values. -/
theorem claim3_witness :
    flux 150 10 1 = (150 - 10) / 1 ∧ (0 < flux 150 10 1 ↔ (10 : ℚ) < 150) :=
  claim3_flux_formula 150 10 1 (by norm_num)

/-- Claim C4: for every valid input (non-empty layers with positive
area-resistances), the interface temperatures obtained by iterating
`T_next = T_current - q * R_layer` forward from `T_first` coincide exactly
(hence within any floating-point tolerance) with those obtained by
iterating `T_prev = T_next + q * R_layer` backward from `T_last`. -/
theorem claim4_forward_backward (rs : List ℚ) (Tf Tl : ℚ) (hne : rs ≠ [])
    (hr : ∀ x ∈ rs, 0 < x) :
    forwardTemps (flux Tf Tl rs.sum) Tf rs = backwardTemps (flux Tf Tl rs.sum) Tl rs := by
  have hs : 0 < rs.sum := List.sum_pos rs hr hne
  set qv := flux Tf Tl rs.sum with hqv
  have hTf : Tf = Tl + qv * rs.sum := by
    rw [hqv, flux, div_mul_cancel₀ _ (ne_of_gt hs)]
    ring
  rw [hTf]
  exact forward_eq_backward _ _ _

/-- Witness for claim C4 at the worked example's resistances. -/
theorem claim4_witness :
    forwardTemps (flux 150 10 ([(3:ℚ)/7, 1/7, 3/7].sum)) 150 [3/7, 1/7, 3/7] =
      backwardTemps (flux 150 10 ([(3:ℚ)/7, 1/7, 3/7].sum)) 10 [3/7, 1/7, 3/7] :=
  claim4_forward_backward [3/7, 1/7, 3/7] 150 10 (by decide) (by norm_num)

/-- Claim C5: the computed flux is constant across every layer interface:
for each layer `i` of the forward temperature profile,
`(T_i - T_{i+1}) / AR_i` equals the single flux value `q` returned by the
solver. -/
theorem claim5_flux_constant (rs : List ℚ) (Tf Tl : ℚ) (hr : ∀ x ∈ rs, 0 < x)
    (i : ℕ) (hi : i < rs.length) :
    ((forwardTemps (flux Tf Tl rs.sum) Tf rs).getD i 0 -
        (forwardTemps (flux Tf Tl rs.sum) Tf rs).getD (i + 1) 0) / rs.getD i 0 =
      flux Tf Tl rs.sum := by
  rw [forwardTemps_getD_succ _ Tf rs i hi]
  have hri : 0 < rs.getD i 0 := by
    have hmem : rs.getD i 0 ∈ rs := by
      rw [List.getD_eq_getElem _ _ hi]
      exact List.getElem_mem hi
    exact hr _ hmem
  rw [sub_sub_cancel, mul_div_assoc, div_self (ne_of_gt hri), mul_one]

/-- Witness for claim C5 at the worked example's first interface. -/
theorem claim5_witness :
    ((forwardTemps (flux 150 10 ([(3:ℚ)/7, 1/7, 3/7].sum)) 150 [3/7, 1/7, 3/7]).getD 0 0 -
        (forwardTemps (flux 150 10 ([(3:ℚ)/7, 1/7, 3/7].sum)) 150
          [3/7, 1/7, 3/7]).getD 1 0) / ([(3:ℚ)/7, 1/7, 3/7].getD 0 0) =
      flux 150 10 ([(3:ℚ)/7, 1/7, 3/7].sum) :=
  claim5_flux_constant [3/7, 1/7, 3/7] 150 10 (by norm_num) 0 (by decide)

/-- Claim C6: for every sequence of `n` layers with positive thicknesses,
the position profile has exactly `n + 1` entries, is strictly increasing,
starts at `0`, ends at the sum of all thicknesses, and its `i`-th entry is
the sum of the thicknesses of the layers before interface `i`; a
single-layer slab yields exactly the two points `0` and the thickness. -/
theorem claim6_profile_positions (Ls : List ℚ) (hL : ∀ x ∈ Ls, 0 < x) :
    (positions Ls).length = Ls.length + 1 ∧
    List.Chain' (· < ·) (positions Ls) ∧
    (positions Ls).getD 0 0 = 0 ∧
    (positions Ls).getD Ls.length 0 = Ls.sum ∧
    (∀ i, i ≤ Ls.length → (positions Ls).getD i 0 = (Ls.take i).sum) ∧
    (∀ l : ℚ, positions [l] = [0, l]) := by
  refine ⟨positions_length Ls, positions_chain Ls hL, ?_, ?_,
    fun i hi => positions_getD Ls i hi, ?_⟩
  · rw [positions_getD Ls 0 (Nat.zero_le _)]
    simp
  · rw [positions_getD Ls Ls.length le_rfl, List.take_length]
  · intro l
    simp [positions]

/-- Witness for claim C6 at the worked example's thicknesses. -/
theorem claim6_witness :
    (positions L).length = L.length + 1 ∧
    List.Chain' (· < ·) (positions L) ∧
    (positions L).getD 0 0 = 0 ∧
    (positions L).getD L.length 0 = L.sum ∧
    (∀ i, i ≤ L.length → (positions L).getD i 0 = (L.take i).sum) ∧
    (∀ l : ℚ, positions [l] = [0, l]) :=
  claim6_profile_positions L (by norm_num [L])

/-- Claim C7: the validated computation fails with the named error for each
invalid input — mismatched lengths give `LengthMismatch`, an empty layer
list gives `EmptyInput`, a non-positive conductivity gives `InvalidLayer`,
a non-positive total resistance gives `InvalidResistance` — and on every
input satisfying the preconditions no error occurs. -/
theorem claim7_error_handling (ks Ls : List ℚ) (Tf Tl : ℚ) :
    (ks.length ≠ Ls.length → validateLayers ks Ls = .error .LengthMismatch) ∧
    (ks = [] → Ls = [] → validateLayers ks Ls = .error .EmptyInput) ∧
    (ks.length = Ls.length → (∃ x ∈ ks, x ≤ 0) →
      validateLayers ks Ls = .error .InvalidLayer) ∧
    (∀ (Rt : ℚ) (ar : List ℚ), Rt ≤ 0 → solveFlux Tf Tl Rt ar = .error .InvalidResistance) ∧
    (ks.length = Ls.length → ks ≠ [] → (∀ x ∈ ks, 0 < x) → (∀ x ∈ Ls, 0 < x) →
      validateLayers ks Ls = .ok (arOf ks Ls, (arOf ks Ls).sum) ∧
      solveFlux Tf Tl (arOf ks Ls).sum (arOf ks Ls) =
        .ok (flux Tf Tl (arOf ks Ls).sum,
          forwardTemps (flux Tf Tl (arOf ks Ls).sum) Tf (arOf ks Ls))) := by
  refine ⟨?_, ?_, ?_, ?_, ?_⟩
  · intro hlen
    simp only [validateLayers]
    rw [if_pos hlen]
  · rintro rfl rfl
    rfl
  · rintro hlen ⟨x, hxk, hxle⟩
    obtain ⟨p, hp, he⟩ := zip_snd_mem Ls ks hlen x hxk
    have hne : ks ≠ [] := by
      rintro rfl
      simp at hxk
    have hany : (List.zip Ls ks).any (fun p => p.1 ≤ 0 ∨ p.2 ≤ 0) = true := by
      rw [List.any_eq_true]
      exact ⟨p, hp, by simp only [decide_eq_true_eq]; exact Or.inr (he ▸ hxle)⟩
    simp only [validateLayers]
    rw [if_neg (not_not_intro hlen), if_neg (by simpa using hne), if_pos hany]
  · intro Rt ar hRt
    simp only [solveFlux]
    rw [if_pos hRt]
  · intro hlen hne hk hL
    have hLne : Ls ≠ [] := by
      rintro rfl
      exact hne (List.length_eq_zero.1 hlen)
    have hpos : 0 < (arOf ks Ls).sum :=
      List.sum_pos _ (arOf_pos ks Ls hk hL) (arOf_ne_nil ks Ls hne hLne)
    refine ⟨validateLayers_ok ks Ls hlen hne hk hL, ?_⟩
    simp only [solveFlux]
    rw [if_neg (not_le.2 hpos)]

/-- Witness for claim C7: each error case and the success case at concrete
inputs. -/
theorem claim7_witness :
    validateLayers [1] [1, 1] = .error CalcError.LengthMismatch ∧
    validateLayers [] [] = .error CalcError.EmptyInput ∧
    validateLayers [0, 1] [1, 1] = .error CalcError.InvalidLayer ∧
    solveFlux 150 10 (-1) [] = .error CalcError.InvalidResistance ∧
    validateLayers k L = .ok (arOf k L, (arOf k L).sum) := by
  refine ⟨(claim7_error_handling [1] [1, 1] 0 0).1 (by decide),
    (claim7_error_handling [] [] 0 0).2.1 rfl rfl,
    (claim7_error_handling [0, 1] [1, 1] 0 0).2.2.1 (by decide) ⟨0, by decide, le_refl 0⟩,
    (claim7_error_handling [] [] 150 10).2.2.2.1 (-1) [] (by norm_num),
    ((claim7_error_handling k L 150 10).2.2.2.2 (by decide) (by decide)
      (by norm_num [k]) (by norm_num [L])).1⟩

/-- Claim C8: for any two valid layer sequences whose per-layer
area-resistances sum to the same `R_total` and the same boundary
temperatures, the solver returns the same heat flux: `q` depends only on
`R_total` and the boundary temperatures, not on the layer partition. -/
theorem claim8_flux_partition_invariant (ks₁ Ls₁ ks₂ Ls₂ : List ℚ) (Tf Tl : ℚ)
    (ar₁ ar₂ : List ℚ)
    (hk₁ : ∀ x ∈ ks₁, 0 < x) (hk₂ : ∀ x ∈ ks₂, 0 < x)
    (h₁ : ARloop ks₁ Ls₁ = .ok ar₁) (h₂ : ARloop ks₂ Ls₂ = .ok ar₂)
    (hsum : Rtotal ar₁ = Rtotal ar₂) :
    flux Tf Tl (Rtotal ar₁) = flux Tf Tl (Rtotal ar₂) := by
  rw [hsum]

/-- Witness for claim C8: a one-layer and a two-layer slab with the same
total resistance. -/
theorem claim8_witness :
    flux 150 10 (Rtotal [1]) = flux 150 10 (Rtotal [1/2, 1/2]) :=
  claim8_flux_partition_invariant [1] [1] [2, 2] [1, 1] 150 10 [1] [1/2, 1/2]
    (by decide) (by decide) (by norm_num [ARloop]) (by norm_num [ARloop])
    (by norm_num [Rtotal])

/-- Claim C9: the area-resistance loop iterates over the indices of `k`
only — extra entries of `L` are silently ignored and no error is raised,
while an `L` shorter than `k` makes the loop fail with an index error
rather than any named validation error. -/
theorem claim9_loop_index_semantics (ks Ls : List ℚ) (hk : ∀ x ∈ ks, x ≠ 0) :
    ARloop ks Ls = ARloop ks (Ls.take ks.length) ∧
    (ks.length ≤ Ls.length → ∃ ar, ARloop ks Ls = .ok ar) ∧
    (Ls.length < ks.length → ARloop ks Ls = .error PyError.indexError) :=
  ⟨ARloop_take ks Ls, fun h => ⟨arOf ks Ls, ARloop_ok ks Ls h hk⟩,
    fun h => ARloop_short ks Ls hk h⟩

/-- Witness for claim C9: a thickness list shorter than the conductivity
list produces an index error. -/
theorem claim9_witness : ARloop [1, 1] [1] = .error PyError.indexError :=
  (claim9_loop_index_semantics [1, 1] [1] (by decide)).2.2 (by decide)

/-- Claim C10: with strictly positive per-layer area-resistances and
`T_first > T_last`, the computed interface temperatures are strictly
decreasing from the first boundary to the last; in the worked example
`T1 > T2 > T3 > T4`. -/
theorem claim10_temps_decreasing (rs : List ℚ) (Tf Tl : ℚ) (hne : rs ≠ [])
    (hr : ∀ x ∈ rs, 0 < x) (hT : Tl < Tf) :
    List.Chain' (· > ·) (forwardTemps (flux Tf Tl rs.sum) Tf rs) ∧
    (T1 > T2 ∧ T2 > T3 ∧ T3 > T4) := by
  have hs : 0 < rs.sum := List.sum_pos rs hr hne
  have hq : 0 < flux Tf Tl rs.sum := div_pos (by linarith) hs
  refine ⟨forwardTemps_chain _ hq Tf rs hr, ?_⟩
  rw [T1, T2_eq, T3_eq, T4]
  norm_num

/-- Witness for claim C10 at the worked example's resistances. -/
theorem claim10_witness :
    List.Chain' (· > ·) (forwardTemps (flux 150 10 ([(3:ℚ)/7, 1/7, 3/7].sum)) 150
      [3/7, 1/7, 3/7]) ∧
    (T1 > T2 ∧ T2 > T3 ∧ T3 > T4) :=
  claim10_temps_decreasing [3/7, 1/7, 3/7] 150 10 (by decide) (by norm_num) (by norm_num)

end HeatConduction
